import Mathlib

/-!
Verification of the rectangle-packing core of mikejsavage/dieselfont.

The geometry primitives are embedded from src/msdf-atlasgen/box.h, and the
atlas-building driver and auto-height search from src/msdf-atlasgen/main.cpp.
The C++ code computes over size_t; coordinates here are Nat.  Every size_t
subtraction in box.h is guarded so that it cannot go below zero, and all
quantities are pixel-scale, far below 2^64, so Nat faithfully models the
machine arithmetic on every state the program can reach.
-/

/-- Embeds `struct box` of box.h (fields x, y, width, height over size_t). -/
structure box where
  x : Nat
  y : Nat
  width : Nat
  height : Nat
deriving DecidableEq

/-- Embeds `box::top()`: `y + height`. -/
def box.top (a : box) : Nat := a.y + a.height

/-- Embeds `box::right()`: `x + width`. -/
def box.right (a : box) : Nat := a.x + a.width

/-- Embeds `overlap` of box.h:
`!(a.right() + spacing <= b.x || b.right() + spacing <= a.x ||
   a.top() + spacing <= b.y || b.top() + spacing <= a.y)`. -/
def overlap (a b : box) (spacing : Nat) : Bool :=
  !(decide (a.right + spacing ≤ b.x) || decide (b.right + spacing ≤ a.x) ||
    decide (a.top + spacing ≤ b.y) || decide (b.top + spacing ≤ a.y))

/-- Embeds `make_splits` of box.h.  The C++ version clears and fills an output
vector with up to four boxes, in the order left, right, top, bottom; here the
result is returned as a list in the same order. -/
def make_splits (a b : box) (spacing : Nat) : List box :=
  (if a.x + spacing < b.x then
    [⟨a.x, a.y, b.x - a.x - spacing, a.height⟩] else []) ++
  (if b.right + spacing < a.right then
    [⟨b.right + spacing, a.y, a.right - b.right - spacing, a.height⟩] else []) ++
  (if b.top + spacing < a.top then
    [⟨a.x, b.top + spacing, a.width, a.top - b.top - spacing⟩] else []) ++
  (if a.y + spacing < b.y then
    [⟨a.x, a.y, a.width, b.y - a.y - spacing⟩] else [])

/-- Embeds `can_fit` of box.h: `a.width >= b.width && a.height >= b.height`. -/
def can_fit (a b : box) : Bool :=
  decide (b.width ≤ a.width) && decide (b.height ≤ a.height)

/-- Embeds `contains` of box.h:
`b.x >= a.x && b.y >= a.y && b.right() <= a.right() && b.top() <= a.top()`. -/
def contains (a b : box) : Bool :=
  decide (a.x ≤ b.x) && decide (a.y ≤ b.y) &&
  decide (b.right ≤ a.right) && decide (b.top ≤ a.top)

/-- Area of a box, `width * height`, the quantity the spec's split-area
property speaks about. -/
def area (a : box) : Nat := a.width * a.height

/-! ### The packer

main.cpp's `build_atlas` collects one `box<size_t>` per glyph (only
width/height meaningful on input) and calls `bin_pack_max_rect(placerefs,
tex_dims.width, tex_dims.height, spacing)` from binpacking.h, which is not
part of this repository's sources; only box.h's geometry and the call site
are.  The driver is therefore modelled from the spec (section 4.4), in two
variants: the literal reading, and the variant the correctness property
forces. -/

/-- Modelled from the spec: step 1-5 of the packing loop for one item, under
the literal reading of step 5 ("Remove the consumed free rectangle from the
Free-Space Set and insert the results of make_splits(consumed, placed_item,
spacing)") — only the consumed free rectangle is split.  The missing source
is `bin_pack_max_rect` in binpacking.h.  The scan order realises first-fit,
one of the deterministic heuristics the spec admits in step 2; step 4 places
the item at the chosen free rectangle's origin.  Returns the placed box and
the updated free list. -/
def place_spec : List box → box → Nat → Option (box × List box)
  | [], _, _ => none
  | f :: fs, it, s =>
    if can_fit f it = true then
      some (⟨f.x, f.y, it.width, it.height⟩,
            make_splits f ⟨f.x, f.y, it.width, it.height⟩ s ++ fs)
    else
      match place_spec fs it s with
      | none => none
      | some (p, fs2) => some (p, f :: fs2)

/-- Modelled from the spec: step 6 of the packing loop, the containment
prune — "remove any free rectangle that is `contains`-ed by another member
(self excluded)". -/
def prune (free : List box) : List box :=
  free.filter (fun f => !(free.any (fun g => decide (g ≠ f) && contains g f)))

/-- Modelled from the spec: the per-item packing loop (section 4.4) under the
literal reading of step 5, failing as soon as no free rectangle fits. -/
def pack_spec : List box → Nat → List box → Option (List box)
  | _, _, [] => some []
  | free, s, it :: its =>
    match place_spec free it s with
    | none => none
    | some (p, free2) =>
      match pack_spec (prune free2) s its with
      | none => none
      | some ps => some (p :: ps)

/-- Modelled from the spec: `bin_pack_max_rect` under the literal reading of
step 5, seeded with the single canvas rectangle (section 3, "Canvas").
Instead of mutating the items' x/y fields through `placerefs` it returns the
list of placed boxes, in item order. -/
def bin_pack_spec (items : List box) (w h s : Nat) : Option (List box) :=
  pack_spec [⟨0, 0, w, h⟩] s items

/-- Modelled from the spec: one placement step of the max-rects variant, in
which every free rectangle overlapping the placed item's spacing-inflated
footprint is split, not only the consumed one.  The first-fit choice and the
placement at the chosen rectangle's origin are as in `place_spec`. -/
def place_maxrect (free : List box) (it : box) (s : Nat) :
    Option (box × List box) :=
  match free.find? (fun f => can_fit f it) with
  | none => none
  | some f =>
    let p : box := ⟨f.x, f.y, it.width, it.height⟩
    some (p, free.flatMap (fun g => if overlap g p s then make_splits g p s else [g]))

/-- Modelled from the spec: the per-item packing loop of the max-rects
variant. -/
def pack_maxrect : List box → Nat → List box → Option (List box)
  | _, _, [] => some []
  | free, s, it :: its =>
    match place_maxrect free it s with
    | none => none
    | some (p, free2) =>
      match pack_maxrect (prune free2) s its with
      | none => none
      | some ps => some (p :: ps)

/-- Modelled from the spec: `bin_pack_max_rect`, max-rects variant. -/
def bin_pack_maxrect (items : List box) (w h s : Nat) : Option (List box) :=
  pack_maxrect [⟨0, 0, w, h⟩] s items

/-! ### The auto-height search

Embedded from `run` in main.cpp (the `cfg.auto_height` branch).  The loop
state is the pair `range = (lo, hi)` plus the local `highest`; one packing
attempt at height `range.second` is abstracted into a boolean predicate,
exactly as the claims do.  The C++ computes `range.second - range.first`
over size_t; on every state the search reaches under an antitone predicate
`range.first <= range.second` holds whenever the failure branch runs, so Nat
truncated subtraction agrees with the machine. -/

structure sstate where
  lo : Nat
  hi : Nat
  highest : Nat
deriving DecidableEq

/-- One iteration of the `while( range.first != range.second )` body:
on success `range.first = range.second; range.second = min(range.first * 2,
highest-1)`, on failure `highest = min(highest, range.second);
range.second = range.first + (range.second-range.first)/2`. -/
def sstep (p : Nat → Bool) (st : sstate) : sstate :=
  if p st.hi then
    { lo := st.hi, hi := min (st.hi * 2) (st.highest - 1), highest := st.highest }
  else
    { lo := st.lo, hi := st.lo + (st.hi - st.lo) / 2, highest := min st.highest st.hi }

/-- The search loop, fuelled: runs `sstep` until `lo = hi` or the fuel is
exhausted. -/
def srun (p : Nat → Bool) : Nat → sstate → sstate
  | 0, st => st
  | n + 1, st => if st.lo = st.hi then st else srun p n (sstep p st)

/-- The loop's entry state: `highest = cfg.tex_dims.height + 1` and
`range(0, cfg.max_char_height)`. -/
def auto_init (mch canvas_h : Nat) : sstate := ⟨0, mch, canvas_h + 1⟩

/-- The value `run` assigns to `cfg.max_char_height` after the loop:
`range.first`. -/
def auto_result (p : Nat → Bool) (mch canvas_h fuel : Nat) : Nat :=
  (srun p fuel (auto_init mch canvas_h)).lo

/-- A packing-feasibility predicate that is monotonically non-increasing in
the candidate height: if a height packs, every smaller height packs. -/
def feas_antitone (p : Nat → Bool) : Prop :=
  ∀ h h' : Nat, h ≤ h' → p h' = true → p h = true

/-- The facts the search loop maintains about its state, relative to the
canvas height `ch`: the best-so-far `lo` packs (or is the vacuous 0), every
height from `highest` up to the canvas height fails, any feasible height
strictly inside the open bracket keeps the loop going, and `hi` drops below
`lo` only when it was clamped to `highest - 1`. -/
def sinv (p : Nat → Bool) (ch : Nat) (st : sstate) : Prop :=
  (st.lo = 0 ∨ p st.lo = true) ∧
  (∀ h, st.highest ≤ h → h ≤ ch → p h = false) ∧
  (∀ h, st.lo < h → h < st.highest → h ≤ ch → p h = true → st.lo < st.hi) ∧
  (st.hi < st.lo → st.hi = st.highest - 1)

/-! ### Basic lemmas about the geometric predicates -/

lemma overlap_eq_false_iff (a b : box) (s : Nat) :
    overlap a b s = false ↔
      a.right + s ≤ b.x ∨ b.right + s ≤ a.x ∨ a.top + s ≤ b.y ∨ b.top + s ≤ a.y := by
  simp only [overlap, Bool.not_eq_false', Bool.or_eq_true, decide_eq_true_eq, or_assoc,
    box.right, box.top]

lemma overlap_eq_true_iff (a b : box) (s : Nat) :
    overlap a b s = true ↔
      b.x < a.right + s ∧ a.x < b.right + s ∧ b.y < a.top + s ∧ a.y < b.top + s := by
  simp only [overlap, Bool.not_eq_true', Bool.or_eq_false_iff, decide_eq_false_iff_not,
    not_le, box.right, box.top]
  tauto

lemma contains_eq_true_iff (a b : box) :
    contains a b = true ↔
      a.x ≤ b.x ∧ a.y ≤ b.y ∧ b.right ≤ a.right ∧ b.top ≤ a.top := by
  simp [contains, and_assoc]

lemma can_fit_eq_true_iff (a b : box) :
    can_fit a b = true ↔ b.width ≤ a.width ∧ b.height ≤ a.height := by
  simp [can_fit]

lemma overlap_comm (a b : box) (s : Nat) : overlap a b s = overlap b a s := by
  rcases h : overlap b a s with _ | _
  · rw [overlap_eq_false_iff] at h ⊢; tauto
  · rw [overlap_eq_true_iff] at h ⊢; tauto

lemma contains_trans {a b c : box} (hab : contains a b = true)
    (hbc : contains b c = true) : contains a c = true := by
  rw [contains_eq_true_iff] at hab hbc ⊢
  unfold box.right box.top at *
  omega

/-- A sub-rectangle overlaps no more than the rectangle containing it. -/
lemma overlap_mono {a c : box} (b : box) (s : Nat) (hac : contains a c = true)
    (hab : overlap a b s = false) : overlap c b s = false := by
  rw [contains_eq_true_iff] at hac
  rw [overlap_eq_false_iff] at hab ⊢
  unfold box.right box.top at *
  omega

lemma mem_if_singleton {c : Prop} [Decidable c] {r y : box} :
    (r ∈ if c then [y] else []) ↔ c ∧ r = y := by
  split
  · simp_all
  · simp_all

/-- Membership characterisation of `make_splits`, read off the four guarded
push_backs of box.h. -/
lemma mem_make_splits {a b : box} {s : Nat} {r : box} :
    r ∈ make_splits a b s ↔
      (a.x + s < b.x ∧ r = ⟨a.x, a.y, b.x - a.x - s, a.height⟩) ∨
      (b.right + s < a.right ∧ r = ⟨b.right + s, a.y, a.right - b.right - s, a.height⟩) ∨
      (b.top + s < a.top ∧ r = ⟨a.x, b.top + s, a.width, a.top - b.top - s⟩) ∨
      (a.y + s < b.y ∧ r = ⟨a.x, a.y, a.width, b.y - a.y - s⟩) := by
  simp [make_splits, List.mem_append, mem_if_singleton]

/-- Any split of a free rectangle `g` that genuinely overlaps the placed box
`p` stays inside `g`. -/
lemma split_subset {g p r : box} {s : Nat} (hov : overlap g p s = true)
    (hr : r ∈ make_splits g p s) : contains g r = true := by
  rw [overlap_eq_true_iff] at hov
  rw [mem_make_splits] at hr
  rcases hr with ⟨hg, rfl⟩ | ⟨hg, rfl⟩ | ⟨hg, rfl⟩ | ⟨hg, rfl⟩ <;>
    · rw [contains_eq_true_iff]
      unfold box.right box.top at *
      simp only
      omega

/-- No split produced by `make_splits g p s` comes within `s` of the placed
box `p`. -/
lemma split_no_overlap {g p r : box} {s : Nat} (hr : r ∈ make_splits g p s) :
    overlap r p s = false := by
  rw [mem_make_splits] at hr
  rcases hr with ⟨hg, rfl⟩ | ⟨hg, rfl⟩ | ⟨hg, rfl⟩ | ⟨hg, rfl⟩ <;>
    · rw [overlap_eq_false_iff]
      unfold box.right box.top at *
      simp only
      omega

lemma mul_bound {p bw bh aw ah : Nat} (h1 : p + bw ≤ aw) (h2 : bh ≤ ah) :
    p * ah + bw * bh ≤ aw * ah :=
  calc p * ah + bw * bh ≤ p * ah + bw * ah :=
        Nat.add_le_add_left (Nat.mul_le_mul (le_refl bw) h2) _
    _ = (p + bw) * ah := by ring
    _ ≤ aw * ah := Nat.mul_le_mul h1 (le_refl ah)

/-! ### Claims about the geometric predicates -/

/-- C7: `overlap(a, b, s)` equals NOT (`a.right + s <= b.x` OR `b.right + s <=
a.x` OR `a.top + s <= b.y` OR `b.top + s <= a.y`); in particular two
rectangles separated by a gap strictly smaller than `s` along both axes are
reported as overlapping. -/
theorem c7_overlap_formula :
    (∀ (a b : box) (s : Nat),
      overlap a b s =
        !(decide (a.right + s ≤ b.x) || decide (b.right + s ≤ a.x) ||
          decide (a.top + s ≤ b.y) || decide (b.top + s ≤ a.y))) ∧
    (∀ (a b : box) (s : Nat),
      a.right ≤ b.x → b.x - a.right < s → a.top ≤ b.y → b.y - a.top < s →
        overlap a b s = true) := by
  constructor
  · intro a b s
    rfl
  · intro a b s h1 h2 h3 h4
    rw [overlap_eq_true_iff]
    unfold box.right box.top at *
    omega

/-- Witness for C7 at a concrete input: the boxes `(0,0,2,2)` and `(3,3,2,2)`
are separated by a gap of 1 on each axis, smaller than the spacing 2, and are
reported as overlapping. -/
theorem c7_witness : overlap ⟨0, 0, 2, 2⟩ ⟨3, 3, 2, 2⟩ 2 = true :=
  c7_overlap_formula.2 ⟨0, 0, 2, 2⟩ ⟨3, 3, 2, 2⟩ 2 (by decide) (by decide)
    (by decide) (by decide)

/-- C8: `overlap` is symmetric in its two rectangles for every spacing. -/
theorem c8_overlap_symm : ∀ (a b : box) (s : Nat), overlap a b s = overlap b a s :=
  overlap_comm

/-- C9: a rectangle overlaps itself at spacing 0 exactly when both its width
and its height are positive, so degenerate rectangles never collide, not even
with themselves. -/
theorem c9_self_overlap :
    ∀ a : box, overlap a a 0 = true ↔ 0 < a.width ∧ 0 < a.height := by
  intro a
  rw [overlap_eq_true_iff]
  unfold box.right box.top
  omega

/-- C10: `contains` is reflexive (all edge comparisons are inclusive), and
accordingly the containment prune, which tests only against other members,
keeps a free rectangle that no other member contains. -/
theorem c10_contains_refl :
    (∀ a : box, contains a a = true) ∧ (∀ a : box, prune [a] = [a]) := by
  constructor
  · intro a
    rw [contains_eq_true_iff]
    omega
  · intro a
    simp [prune]

/-- C4: `make_splits(a, b, s)` produces exactly the guarded candidate
remainders: a left remainder iff `a.x + s < b.x`, spanning x in
`[a.x, b.x - s)` at full height; a right remainder iff `a.right > b.right +
s`, spanning x in `[b.right + s, a.right)` at full height; a top remainder
iff `a.top > b.top + s`, spanning y in `[b.top + s, a.top)` at full width;
and a bottom remainder iff `a.y + s < b.y`, spanning y in `[a.y, b.y - s)`
at full width. -/
theorem c4_make_splits_exact :
    ∀ (a b : box) (s : Nat) (r : box),
      r ∈ make_splits a b s ↔
        (a.x + s < b.x ∧
          r.x = a.x ∧ r.right = b.x - s ∧ r.y = a.y ∧ r.height = a.height) ∨
        (b.right + s < a.right ∧
          r.x = b.right + s ∧ r.right = a.right ∧ r.y = a.y ∧ r.height = a.height) ∨
        (b.top + s < a.top ∧
          r.x = a.x ∧ r.width = a.width ∧ r.y = b.top + s ∧ r.top = a.top) ∨
        (a.y + s < b.y ∧
          r.x = a.x ∧ r.width = a.width ∧ r.y = a.y ∧ r.top = b.y - s) := by
  intro a b s r
  obtain ⟨rx, ry, rw, rh⟩ := r
  rw [mem_make_splits]
  simp only [box.mk.injEq, box.right, box.top]
  constructor
  · rintro (⟨hg, h⟩ | ⟨hg, h⟩ | ⟨hg, h⟩ | ⟨hg, h⟩)
    · exact Or.inl (by omega)
    · exact Or.inr (Or.inl (by omega))
    · exact Or.inr (Or.inr (Or.inl (by omega)))
    · exact Or.inr (Or.inr (Or.inr (by omega)))
  · rintro (⟨hg, h⟩ | ⟨hg, h⟩ | ⟨hg, h⟩ | ⟨hg, h⟩)
    · exact Or.inl (by omega)
    · exact Or.inr (Or.inl (by omega))
    · exact Or.inr (Or.inr (Or.inl (by omega)))
    · exact Or.inr (Or.inr (Or.inr (by omega)))

/-- C5: when the placed rectangle `b` lies inside the free rectangle `a`,
every split produced by `make_splits(a, b, s)` lies within `a` and keeps a
distance of at least `s` from `b`. -/
theorem c5_splits_inside (a b : box) (s : Nat) (hab : contains a b = true)
    (r : box) (hr : r ∈ make_splits a b s) :
    contains a r = true ∧ overlap r b s = false := by
  refine ⟨?_, split_no_overlap hr⟩
  rw [contains_eq_true_iff] at hab
  rw [mem_make_splits] at hr
  rcases hr with ⟨hg, rfl⟩ | ⟨hg, rfl⟩ | ⟨hg, rfl⟩ | ⟨hg, rfl⟩ <;>
    · rw [contains_eq_true_iff]
      unfold box.right box.top at *
      simp only
      omega

/-- Witness for C5: splitting the free canvas `(0,0,10,10)` around the
contained box `(2,2,2,2)` at spacing 0, the left split `(0,0,2,10)` lies
inside the canvas and does not overlap the box. -/
theorem c5_witness :
    contains ⟨0, 0, 10, 10⟩ ⟨0, 0, 2, 10⟩ = true ∧
      overlap ⟨0, 0, 2, 10⟩ ⟨2, 2, 2, 2⟩ 0 = false :=
  c5_splits_inside ⟨0, 0, 10, 10⟩ ⟨2, 2, 2, 2⟩ 0 (by decide) ⟨0, 0, 2, 10⟩ (by decide)

/-- C2 counterexample: the claim that the splits' total area is at most
`area(a) - area(b)` fails already for the canvas `(0,0,10,10)`, the contained
box `(2,2,2,2)` and spacing 0: the four maximal-rectangle splits overlap each
other and their areas sum to 160, while `area(a) - area(b) = 96`. -/
theorem c2_counterexample :
    contains ⟨0, 0, 10, 10⟩ ⟨2, 2, 2, 2⟩ = true ∧
    ((make_splits ⟨0, 0, 10, 10⟩ ⟨2, 2, 2, 2⟩ 0).map area).sum = 160 ∧
    ¬(((make_splits ⟨0, 0, 10, 10⟩ ⟨2, 2, 2, 2⟩ 0).map area).sum ≤
        area ⟨0, 0, 10, 10⟩ - area ⟨2, 2, 2, 2⟩) := by
  decide

/-- C2 (amended): for a free rectangle `a` and an item `b` with
`contains(a, b)`, EACH rectangle produced by `make_splits(a, b, s)` has area
at most `area(a) - area(b)` (the sum over the splits does not satisfy this
bound, because the maximal-rectangle splits overlap one another). -/
theorem c2_split_area (a b : box) (s : Nat) (hab : contains a b = true) :
    ∀ r ∈ make_splits a b s, area r ≤ area a - area b := by
  intro r hr
  rw [contains_eq_true_iff] at hab
  unfold box.right box.top at hab
  rw [mem_make_splits] at hr
  rcases hr with ⟨hg, rfl⟩ | ⟨hg, rfl⟩ | ⟨hg, rfl⟩ | ⟨hg, rfl⟩
  · have h3 : (b.x - a.x - s) * a.height + b.width * b.height ≤
        a.width * a.height :=
      mul_bound (by omega) (by omega)
    simp only [area]
    omega
  · have h3 : (a.right - b.right - s) * a.height + b.width * b.height ≤
        a.width * a.height :=
      mul_bound (by unfold box.right; omega) (by omega)
    simp only [area, box.right]
    unfold box.right at h3
    omega
  · have h3 : (a.top - b.top - s) * a.width + b.height * b.width ≤
        a.height * a.width :=
      mul_bound (by unfold box.top; omega) (by omega)
    have e1 : a.width * (a.top - b.top - s) = (a.top - b.top - s) * a.width :=
      Nat.mul_comm _ _
    have e2 : b.width * b.height = b.height * b.width := Nat.mul_comm _ _
    have e3 : a.width * a.height = a.height * a.width := Nat.mul_comm _ _
    simp only [area, box.top]
    unfold box.top at h3 e1
    omega
  · have h3 : (b.y - a.y - s) * a.width + b.height * b.width ≤
        a.height * a.width :=
      mul_bound (by omega) (by omega)
    have e2 : b.width * b.height = b.height * b.width := Nat.mul_comm _ _
    have e3 : a.width * a.height = a.height * a.width := Nat.mul_comm _ _
    have e1 : a.width * (b.y - a.y - s) = (b.y - a.y - s) * a.width :=
      Nat.mul_comm _ _
    simp only [area]
    omega

/-- Witness for C2 (amended) at a concrete input: the left split of the
canvas `(0,0,10,10)` around `(2,2,2,2)` at spacing 0 has area `20 ≤ 96`. -/
theorem c2_witness :
    area ⟨0, 0, 2, 10⟩ ≤ area ⟨0, 0, 10, 10⟩ - area ⟨2, 2, 2, 2⟩ :=
  c2_split_area ⟨0, 0, 10, 10⟩ ⟨2, 2, 2, 2⟩ 0 (by decide) ⟨0, 0, 2, 10⟩ (by decide)

/-- C1 counterexample: under the spec's literal step 5 (split only the
consumed free rectangle) the packer reports success on canvas 10×10,
spacing 0, items [(2,2), (8,8), (4,4)] — first-fit, a heuristic the spec
admits — yet the second and third placements overlap: after placing (8,8)
at (2,0) inside the free rectangle (2,0,8,10), the untouched free rectangle
(0,2,10,8) still covers part of that item's footprint, and the (4,4) item is
placed at its origin (0,2). -/
theorem c1_counterexample :
    bin_pack_spec [⟨0, 0, 2, 2⟩, ⟨0, 0, 8, 8⟩, ⟨0, 0, 4, 4⟩] 10 10 0 =
      some [⟨0, 0, 2, 2⟩, ⟨2, 0, 8, 8⟩, ⟨0, 2, 4, 4⟩] ∧
    overlap ⟨2, 0, 8, 8⟩ ⟨0, 2, 4, 4⟩ 0 = true := by
  decide

/-! ### Soundness of the max-rects packer -/

lemma contains_refl (a : box) : contains a a = true := by
  rw [contains_eq_true_iff]
  omega

lemma can_fit_place {f it : box} (h : can_fit f it = true) :
    contains f ⟨f.x, f.y, it.width, it.height⟩ = true := by
  rw [can_fit_eq_true_iff] at h
  rw [contains_eq_true_iff]
  unfold box.right box.top
  simp only
  omega

lemma mem_prune {f : box} {free : List box} (h : f ∈ prune free) : f ∈ free :=
  List.mem_of_mem_filter h

lemma split_all_mem {free : List box} {p g' : box} {s : Nat}
    (h : g' ∈ free.flatMap (fun g => if overlap g p s then make_splits g p s else [g])) :
    (g' ∈ free ∧ overlap g' p s = false) ∨
      ∃ g ∈ free, overlap g p s = true ∧ g' ∈ make_splits g p s := by
  rw [List.mem_flatMap] at h
  obtain ⟨g, hg, hmem⟩ := h
  by_cases hov : overlap g p s = true
  · rw [if_pos hov] at hmem
    exact Or.inr ⟨g, hg, hov, hmem⟩
  · rw [if_neg hov] at hmem
    rw [List.mem_singleton] at hmem
    subst hmem
    exact Or.inl ⟨hg, Bool.not_eq_true _ ▸ hov⟩

/-- Splitting every free rectangle that overlaps the placed box `p` keeps
three facts about every member of the new free list: it stays within the
canvas, it keeps clear of `p`, and it overlaps no box that all old free
rectangles kept clear of. -/
lemma split_all_inv {free : List box} {p g' : box} {s : Nat} (cv : box)
    (h : g' ∈ free.flatMap (fun g => if overlap g p s then make_splits g p s else [g]))
    (hfree : ∀ f ∈ free, contains cv f = true) :
    contains cv g' = true ∧ overlap g' p s = false ∧
      ∀ b : box, (∀ f ∈ free, overlap f b s = false) → overlap g' b s = false := by
  rcases split_all_mem h with ⟨hg, hov⟩ | ⟨g, hg, hov, hmem⟩
  · exact ⟨hfree _ hg, hov, fun b hb => hb _ hg⟩
  · have hsub : contains g g' = true := split_subset hov hmem
    exact ⟨contains_trans (hfree _ hg) hsub, split_no_overlap hmem,
      fun b hb => overlap_mono b s hsub (hb _ hg)⟩

lemma place_maxrect_some {free : List box} {it : box} {s : Nat} {p : box}
    {free2 : List box} (h : place_maxrect free it s = some (p, free2)) :
    ∃ f ∈ free, can_fit f it = true ∧ p = ⟨f.x, f.y, it.width, it.height⟩ ∧
      free2 = free.flatMap
        (fun g => if overlap g p s then make_splits g p s else [g]) := by
  unfold place_maxrect at h
  cases hf : free.find? (fun f => can_fit f it) with
  | none =>
    rw [hf] at h
    exact absurd h (by simp)
  | some f =>
    rw [hf] at h
    simp only [Option.some.injEq, Prod.mk.injEq] at h
    obtain ⟨hp, hfree2⟩ := h
    subst hp
    exact ⟨f, List.mem_of_find?_eq_some hf, by simpa using List.find?_some hf,
      rfl, hfree2.symm⟩

/-- Soundness of the max-rects packing loop: starting from any free list of
canvas sub-rectangles, a successful run returns one placed box per item with
the item's dimensions, all within the canvas, pairwise clear of each other
by at least the spacing. -/
lemma pack_maxrect_sound (cv : box) (s : Nat) :
    ∀ (items free ps : List box),
      (∀ f ∈ free, contains cv f = true) →
      pack_maxrect free s items = some ps →
      List.Forall₂ (fun it p => p.width = it.width ∧ p.height = it.height) items ps ∧
      (∀ p ∈ ps, contains cv p = true) ∧
      (∀ b : box, (∀ f ∈ free, overlap f b s = false) →
        ∀ p ∈ ps, overlap p b s = false) ∧
      ps.Pairwise (fun p q => overlap p q s = false ∧ overlap q p s = false) := by
  intro items
  induction items with
  | nil =>
    intro free ps hfree hpack
    unfold pack_maxrect at hpack
    simp only [Option.some.injEq] at hpack
    subst hpack
    exact ⟨List.Forall₂.nil, by simp, by simp, List.Pairwise.nil⟩
  | cons it its ih =>
    intro free ps hfree hpack
    unfold pack_maxrect at hpack
    split at hpack
    · exact absurd hpack (by simp)
    · rename_i p free2 hpl
      split at hpack
      · exact absurd hpack (by simp)
      · rename_i ps' hrec
        simp only [Option.some.injEq] at hpack
        subst hpack
        obtain ⟨f, hfmem, hfit, hp, hfree2⟩ := place_maxrect_some hpl
        have hfp : contains f p = true := hp ▸ can_fit_place hfit
        have hcvp : contains cv p = true := contains_trans (hfree f hfmem) hfp
        have hprune : ∀ g' ∈ prune free2, contains cv g' = true ∧
            overlap g' p s = false ∧
            ∀ b : box, (∀ f' ∈ free, overlap f' b s = false) →
              overlap g' b s = false := by
          intro g' hg'
          have hg2 := mem_prune hg'
          rw [hfree2] at hg2
          exact split_all_inv cv hg2 hfree
        obtain ⟨ihF, ihC, ihB, ihP⟩ :=
          ih (prune free2) ps' (fun g' hg' => (hprune g' hg').1) hrec
        refine ⟨?_, ?_, ?_, ?_⟩
        · exact List.Forall₂.cons ⟨by rw [hp], by rw [hp]⟩ ihF
        · intro q hq
          rcases List.mem_cons.mp hq with rfl | hq'
          · exact hcvp
          · exact ihC q hq'
        · intro b hb q hq
          rcases List.mem_cons.mp hq with rfl | hq'
          · exact overlap_mono b s hfp (hb f hfmem)
          · exact ihB b (fun g' hg' => (hprune g' hg').2.2 b hb) q hq'
        · refine List.Pairwise.cons ?_ ihP
          intro q hq
          have hqp : overlap q p s = false :=
            ihB p (fun g' hg' => (hprune g' hg').2.1) q hq
          exact ⟨overlap_comm p q s ▸ hqp, hqp⟩

/-- C1 (amended): under the spec's packing contract with step 5 strengthened
to split EVERY free rectangle that overlaps the placed item (not only the
consumed one — the literal step 5 is refuted by `c1_counterexample`), a
successful `bin_pack_max_rect` run populates one position per item with the
item's dimensions, every placement satisfies `0 ≤ x`, `0 ≤ y`,
`right ≤ canvas width`, `top ≤ canvas height`, and every pair of distinct
placements is overlap-free at the given spacing. -/
theorem c1_packer_sound (items ps : List box) (w h s : Nat)
    (hpack : bin_pack_maxrect items w h s = some ps) :
    List.Forall₂ (fun it p => p.width = it.width ∧ p.height = it.height) items ps ∧
    (∀ p ∈ ps, 0 ≤ p.x ∧ 0 ≤ p.y ∧ p.right ≤ w ∧ p.top ≤ h) ∧
    ps.Pairwise (fun p q => overlap p q s = false ∧ overlap q p s = false) := by
  unfold bin_pack_maxrect at hpack
  obtain ⟨hF, hC, _, hP⟩ := pack_maxrect_sound ⟨0, 0, w, h⟩ s items [⟨0, 0, w, h⟩] ps
    (by
      intro f hf
      rw [List.mem_singleton] at hf
      subst hf
      exact contains_refl _) hpack
  refine ⟨hF, ?_, hP⟩
  intro p hp
  have hc := hC p hp
  rw [contains_eq_true_iff] at hc
  unfold box.right box.top at *
  simp only at hc
  omega

/-- Witness for C1 (amended): packing the single 2×2 item into a 4×4 canvas
at spacing 0 succeeds with the placement `(0,0,2,2)`, which is in bounds and
trivially pairwise overlap-free. -/
theorem c1_witness :
    List.Forall₂ (fun it p => p.width = it.width ∧ p.height = it.height)
      ([⟨0, 0, 2, 2⟩] : List box) ([⟨0, 0, 2, 2⟩] : List box) ∧
    (∀ p ∈ [(⟨0, 0, 2, 2⟩ : box)], 0 ≤ p.x ∧ 0 ≤ p.y ∧ p.right ≤ 4 ∧ p.top ≤ 4) ∧
    List.Pairwise (fun p q => overlap p q 0 = false ∧ overlap q p 0 = false)
      [(⟨0, 0, 2, 2⟩ : box)] :=
  c1_packer_sound [⟨0, 0, 2, 2⟩] [⟨0, 0, 2, 2⟩] 4 4 0 (by decide)

/-! ### The auto-height search: termination and the value it returns -/

lemma srun_succ (p : Nat → Bool) (st : sstate) (n : Nat) :
    srun p (n + 1) st = if st.lo = st.hi then st else srun p n (sstep p st) :=
  rfl

lemma srun_done {p : Nat → Bool} {st : sstate} (n : Nat) (h : st.lo = st.hi) :
    srun p n st = st := by
  cases n with
  | zero => rfl
  | succ n =>
    rw [srun_succ, if_pos h]

lemma srun_succ_of_ne {p : Nat → Bool} {st : sstate} (h : ¬st.lo = st.hi)
    (n : Nat) : srun p (n + 1) st = srun p n (sstep p st) := by
  rw [srun_succ, if_neg h]

lemma sstep_pos {p : Nat → Bool} (st : sstate) (h : p st.hi = true) :
    sstep p st = ⟨st.hi, min (st.hi * 2) (st.highest - 1), st.highest⟩ := by
  unfold sstep
  rw [if_pos h]

lemma sstep_neg {p : Nat → Bool} (st : sstate) (h : p st.hi = false) :
    sstep p st = ⟨st.lo, st.lo + (st.hi - st.lo) / 2, min st.highest st.hi⟩ := by
  unfold sstep
  rw [if_neg (by simp [h])]

lemma lex_lt_of_fst {u' u v' v k : Nat} (hu : u' < u) (hv : v' < k) :
    u' * k + v' < u * k + v := by
  have h1 : (u' + 1) * k ≤ u * k := Nat.mul_le_mul hu (le_refl k)
  have h2 : (u' + 1) * k = u' * k + k := by ring
  omega

lemma lex_lt_of_snd {u' u v' v k : Nat} (hu : u' ≤ u) (hv : v' < v) :
    u' * k + v' < u * k + v := by
  have h1 : u' * k ≤ u * k := Nat.mul_le_mul hu (le_refl k)
  omega

/-- Termination of the search loop: from any state whose bracket and cap are
bounded by `m0` and whose `lo` does not exceed `hi`, the loop reaches
`lo = hi` in finitely many iterations.  The lexicographic measure is
(cap distance of `lo`, bracket width); a success step raises `lo`, a failure
step halves the bracket, and a success probed above the cap reaches a fixed
point within two further iterations. -/
lemma terminates_aux (p : Nat → Bool) (hp : feas_antitone p) (m0 : Nat) :
    ∀ M : Nat, ∀ st : sstate,
      st.lo ≤ st.hi →
      (st.hi ≤ st.highest - 1 ∨ st.lo = 0) →
      st.highest - 1 ≤ m0 →
      st.hi - st.lo ≤ m0 →
      (st.highest - 1 - st.lo) * (m0 + 1) + (st.hi - st.lo) ≤ M →
      ∃ n, (srun p n st).lo = (srun p n st).hi := by
  intro M
  induction M using Nat.strong_induction_on with
  | _ M IH =>
    intro st hlohi hcap hb1 hb2 hM
    by_cases hdone : st.lo = st.hi
    · exact ⟨0, hdone⟩
    · have hlt : st.lo < st.hi := lt_of_le_of_ne hlohi hdone
      by_cases hP : p st.hi = true
      · by_cases hhc : st.hi ≤ st.highest - 1
        · -- success below the cap: lo advances to hi
          have hs := sstep_pos st hP
          have hfst : (sstep p st).highest - 1 - (sstep p st).lo <
              st.highest - 1 - st.lo := by
            rw [hs]
            simp only
            omega
          have hsnd : (sstep p st).hi - (sstep p st).lo < m0 + 1 := by
            rw [hs]
            simp only
            omega
          obtain ⟨n, hn⟩ := IH
            (((sstep p st).highest - 1 - (sstep p st).lo) * (m0 + 1) +
              ((sstep p st).hi - (sstep p st).lo))
            (lt_of_lt_of_le (lex_lt_of_fst hfst hsnd) hM)
            (sstep p st)
            (by rw [hs]; simp only; omega)
            (by rw [hs]; simp only; left; omega)
            (by rw [hs]; simp only; omega)
            (by rw [hs]; simp only; omega)
            (le_refl _)
          exact ⟨n + 1, by rw [srun_succ_of_ne hdone]; exact hn⟩
        · -- success above the cap: two more successes reach the fixed point
          have hchi : st.highest - 1 < st.hi := by omega
          have h1 : sstep p st = ⟨st.hi, st.highest - 1, st.highest⟩ := by
            rw [sstep_pos st hP]
            have hmin : min (st.hi * 2) (st.highest - 1) = st.highest - 1 := by
              omega
            rw [hmin]
          have hPc : p (st.highest - 1) = true := hp _ _ (by omega) hP
          have h2 : sstep p ⟨st.hi, st.highest - 1, st.highest⟩ =
              ⟨st.highest - 1, st.highest - 1, st.highest⟩ := by
            rw [sstep_pos ⟨st.hi, st.highest - 1, st.highest⟩ hPc]
            simp only
            have hmin : min ((st.highest - 1) * 2) (st.highest - 1) =
                st.highest - 1 := by
              omega
            rw [hmin]
          refine ⟨3, ?_⟩
          rw [srun_succ_of_ne hdone, h1,
            srun_succ_of_ne (by simp only; omega) 1, h2,
            srun_done 1 rfl]
      · -- failure: the bracket halves
        have hPf : p st.hi = false := by
          simpa using hP
        have hs := sstep_neg st hPf
        have hfst : (sstep p st).highest - 1 - (sstep p st).lo ≤
            st.highest - 1 - st.lo := by
          rw [hs]
          simp only
          omega
        have hsnd : (sstep p st).hi - (sstep p st).lo < st.hi - st.lo := by
          rw [hs]
          simp only
          omega
        obtain ⟨n, hn⟩ := IH
          (((sstep p st).highest - 1 - (sstep p st).lo) * (m0 + 1) +
            ((sstep p st).hi - (sstep p st).lo))
          (lt_of_lt_of_le (lex_lt_of_snd hfst hsnd) hM)
          (sstep p st)
          (by rw [hs]; simp only; omega)
          (by
            rw [hs]
            simp only
            rcases hcap with hc | hc
            · left; omega
            · right; omega)
          (by rw [hs]; simp only; omega)
          (by rw [hs]; simp only; omega)
          (le_refl _)
        exact ⟨n + 1, by rw [srun_succ_of_ne hdone]; exact hn⟩

/-- C6: for every monotonically non-increasing packing-feasibility predicate
and every initial `max_char_height` and canvas height, the auto-height loop
terminates: after finitely many iterations the bracket reaches
`range.first == range.second`. -/
theorem c6_terminates (p : Nat → Bool) (hp : feas_antitone p)
    (mch canvas_h : Nat) :
    ∃ n, (srun p n (auto_init mch canvas_h)).lo =
      (srun p n (auto_init mch canvas_h)).hi := by
  refine terminates_aux p hp (mch + canvas_h)
    (((auto_init mch canvas_h).highest - 1 - (auto_init mch canvas_h).lo) *
      (mch + canvas_h + 1) +
      ((auto_init mch canvas_h).hi - (auto_init mch canvas_h).lo))
    (auto_init mch canvas_h) ?_ ?_ ?_ ?_ (le_refl _)
  · simp only [auto_init]
    omega
  · simp only [auto_init]
    right
    trivial
  · simp only [auto_init]
    omega
  · simp only [auto_init]
    omega

/-- Witness for C6: with the always-feasible predicate (a font with no
glyphs), initial height 5 and canvas height 3, the loop reaches a fixed
bracket. -/
theorem c6_witness :
    ∃ n, (srun (fun _ => true) n (auto_init 5 3)).lo =
      (srun (fun _ => true) n (auto_init 5 3)).hi :=
  c6_terminates (fun _ => true) (fun _ _ _ hph => hph) 5 3

/-- The loop invariant `sinv` is preserved by one non-terminal iteration. -/
lemma sinv_step (p : Nat → Bool) (hp : feas_antitone p) (ch : Nat)
    (st : sstate) (hq : sinv p ch st) : sinv p ch (sstep p st) := by
  obtain ⟨q1, q2, q3, q4⟩ := hq
  unfold sinv
  by_cases hP : p st.hi = true
  · have hlo : (sstep p st).lo = st.hi := by rw [sstep_pos st hP]
    have hhi : (sstep p st).hi = min (st.hi * 2) (st.highest - 1) := by
      rw [sstep_pos st hP]
    have hhs : (sstep p st).highest = st.highest := by rw [sstep_pos st hP]
    rw [hlo, hhi, hhs]
    refine ⟨Or.inr hP, q2, ?_, ?_⟩
    · intro h h1 h2 h3 h4
      by_cases hlt : st.hi < st.lo
      · have h5 := q4 hlt
        omega
      · by_cases hzero : st.hi = 0
        · have h6 := q3 h (by omega) h2 h3 h4
          omega
        · omega
    · intro hlt
      omega
  · have hPf : p st.hi = false := by simpa using hP
    have hlo : (sstep p st).lo = st.lo := by rw [sstep_neg st hPf]
    have hhi : (sstep p st).hi = st.lo + (st.hi - st.lo) / 2 := by
      rw [sstep_neg st hPf]
    have hhs : (sstep p st).highest = min st.highest st.hi := by
      rw [sstep_neg st hPf]
    rw [hlo, hhi, hhs]
    refine ⟨q1, ?_, ?_, ?_⟩
    · intro h h1 h2
      cases hb : p h with
      | false => rfl
      | true =>
        exfalso
        have hcase : st.highest ≤ h ∨ st.hi ≤ h := by omega
        rcases hcase with hc | hc
        · exact absurd (q2 h hc h2) (by simp [hb])
        · exact absurd (hp st.hi h hc hb) (by simp [hPf])
    · intro h h1 h2 h3 h4
      omega
    · intro hlt
      omega

lemma sinv_srun (p : Nat → Bool) (hp : feas_antitone p) (ch : Nat) :
    ∀ (n : Nat) (st : sstate), sinv p ch st → sinv p ch (srun p n st) := by
  intro n
  induction n with
  | zero => intro st hq; exact hq
  | succ n ih =>
    intro st hq
    rw [srun_succ]
    by_cases hdone : st.lo = st.hi
    · rw [if_pos hdone]
      exact hq
    · rw [if_neg hdone]
      exact ih _ (sinv_step p hp ch st hq)

/-- C3 (amended): for every monotonically non-increasing feasibility
predicate and canvas height, provided the initial `max_char_height` is at
least 1, when the loop terminates with `lo == hi` the resulting
`max_char_height` is `lo` (`auto_result` is by definition the final
`range.first`), `lo` is feasible (or the vacuously feasible 0), and no
height above `lo` up to the canvas height is feasible — `lo` is maximal
among the heights the search can ever accept. -/
theorem c3_auto_search (p : Nat → Bool) (hp : feas_antitone p)
    (mch canvas_h n : Nat) (hmch : 1 ≤ mch)
    (hdone : (srun p n (auto_init mch canvas_h)).lo =
      (srun p n (auto_init mch canvas_h)).hi) :
    (auto_result p mch canvas_h n = 0 ∨
      p (auto_result p mch canvas_h n) = true) ∧
    ∀ h, auto_result p mch canvas_h n < h → h ≤ canvas_h → p h = false := by
  have hinit : sinv p canvas_h (auto_init mch canvas_h) :=
    ⟨Or.inl rfl,
     fun h h1 h2 => absurd (le_trans h1 h2 : canvas_h + 1 ≤ canvas_h) (by omega),
     fun h h1 h2 h3 h4 => hmch,
     fun hlt => absurd (show mch < 0 from hlt) (by omega)⟩
  obtain ⟨q1, q2, q3, q4⟩ :=
    sinv_srun p hp canvas_h n (auto_init mch canvas_h) hinit
  refine ⟨q1, ?_⟩
  intro h hlo hH
  cases hb : p h with
  | false => rfl
  | true =>
    exfalso
    by_cases hc : (srun p n (auto_init mch canvas_h)).highest ≤ h
    · exact absurd (q2 h hc hH) (by simp [hb])
    · have h6 := q3 h
        (show (srun p n (auto_init mch canvas_h)).lo < h from hlo)
        (by omega) hH hb
      omega

/-- C3 counterexample: with initial `max_char_height = 0` the loop body never
runs — `lo = hi = 0` at entry — so the result is 0 even though height 1 is
feasible and within the canvas height 1 for the antitone predicate
`h <= 1`; the returned `lo` is then not the maximal feasible height. -/
theorem c3_counterexample :
    feas_antitone (fun h => decide (h ≤ 1)) ∧
    (auto_init 0 1).lo = (auto_init 0 1).hi ∧
    (fun h => decide (h ≤ 1)) 1 = true ∧
    ¬(1 ≤ auto_result (fun h => decide (h ≤ 1)) 0 1 0) := by
  refine ⟨?_, rfl, by decide, by decide⟩
  intro h h' hle hph
  simp only [decide_eq_true_eq] at hph ⊢
  omega

/-- Witness for C3 (amended): for the antitone predicate `h <= 2` with
initial height 1 and canvas height 5, the search terminates after four
iterations at `lo = hi = 2`; the result is feasible and every height in
`(2, 5]` is infeasible. -/
theorem c3_witness :
    (auto_result (fun h => decide (h ≤ 2)) 1 5 5 = 0 ∨
      (fun h => decide (h ≤ 2)) (auto_result (fun h => decide (h ≤ 2)) 1 5 5) =
        true) ∧
    ∀ h, auto_result (fun h => decide (h ≤ 2)) 1 5 5 < h → h ≤ 5 →
      (fun h => decide (h ≤ 2)) h = false :=
  c3_auto_search (fun h => decide (h ≤ 2))
    (fun h h' hle hph => by
      simp only [decide_eq_true_eq] at hph ⊢
      omega)
    1 5 5 (by decide) (by decide)
